import Mathlib

/-!
# Verification of the kaleidoscope-ts front-end

A shallow embedding of the TypeScript sources of `kaleidoscope-ts`
(`src/main.ts`, `src/cstdio.ts`, `src/cctype.ts`) together with proofs of the
testable properties stated in the specification.

Modelling conventions:
* Character codes are `Int` (so that the end-of-stream sentinel `EOF = -1`
  lives in the same type, exactly as in the TypeScript code).
* The character source (`cstdio.ts`) is a finite `List Char`; `getchar` pops
  the front element and yields `EOF` forever once the list is empty.
* The mutable module-level variables (`LastChar`, `IdentifierStr`, `NumVal`,
  `CurTok`, the diagnostic output) become fields of explicit state records
  that every operation threads through.
* Numeric values (`NumVal`, the payload of number literals) are modelled as
  `Option ℚ`: `some q` is the exact value produced by decimal-text
  conversion, `none` models JavaScript `NaN` (the result of `parseFloat` on
  text with no valid numeric prefix).  The buffers the lexer hands to
  `parseFloat` consist of digits and dots only, so the sign/exponent/space
  cases of `parseFloat` cannot arise and are not modelled.
* General recursion (the comment restart inside `gettok`, the mutually
  recursive parser, the driver loop) is embedded with an explicit fuel
  parameter; sufficiency of fuel is proved where a claim needs it.
-/

/-! ## cstdio.ts / cctype.ts -/

/-- `EOF` from cstdio.ts line 3. -/
def EOF : Int := -1

/-- Character code of a source character (`toCharCode` from lib). -/
def ord (c : Char) : Int := (c.toNat : Int)

/-- cctype.ts `isspace` (space, tab, newline, vertical tab, form feed,
carriage return). -/
def isspace (c : Int) : Bool :=
  c == 32 || c == 9 || c == 10 || c == 11 || c == 12 || c == 13

/-- cctype.ts `isalpha`: `/[a-zA-Z]/`. -/
def isalpha (c : Int) : Bool :=
  decide ((65 ≤ c ∧ c ≤ 90) ∨ (97 ≤ c ∧ c ≤ 122))

/-- cctype.ts `isdigit`: `/[0-9]/`. -/
def isdigit (c : Int) : Bool :=
  decide (48 ≤ c ∧ c ≤ 57)

/-- cctype.ts `isalnum`: `/[a-zA-Z0-9]/`. -/
def isalnum (c : Int) : Bool :=
  isalpha c || isdigit c

/-- cstdio.ts `getchar`: pop the next character of the stream, or `EOF` once
the stream is exhausted. -/
def getchar : List Char → Int × List Char
  | [] => (EOF, [])
  | x :: xs => (ord x, xs)

/-! ## Lexer state (main.ts lines 24-28) -/

/-- The lexer's mutable module state: the one-character lookahead `LastChar`
(main.ts line 28, primed with a space), the remaining character stream, and
the side-channel payloads `IdentifierStr` / `NumVal` (main.ts lines 24-25;
declared without initial value in TypeScript and never read before first
assignment, seeded here with neutral values). -/
structure LexSt where
  lastChar : Int
  input : List Char
  identifierStr : String
  numVal : Option ℚ
deriving DecidableEq

/-- Token codes from the `Token` enum (main.ts lines 12-22). -/
def tok_eof : Int := -1
/-- `tok_def = -2`. -/
def tok_def : Int := -2
/-- `tok_extern = -3`. -/
def tok_extern : Int := -3
/-- `tok_identifier = -4`. -/
def tok_identifier : Int := -4
/-- `tok_number = -5`. -/
def tok_number : Int := -5

/-! ## Lexer loops (main.ts lines 29-80) -/

/-- The whitespace-skipping loop of `gettok` (main.ts lines 31-33): while the
lookahead is whitespace, fetch the next character. -/
def skipSpaces : Int → List Char → Int × List Char
  | c, [] => if isspace c then (EOF, []) else (c, [])
  | c, x :: xs => if isspace c then skipSpaces (ord x) xs else (c, x :: xs)

/-- The identifier accumulation loop (main.ts lines 37-39): keep fetching
while the fetched character is alphanumeric, appending to the buffer; the
first non-alphanumeric fetch becomes the new lookahead. -/
def readIdent : String → List Char → String × Int × List Char
  | acc, [] => (acc, EOF, [])
  | acc, x :: xs =>
    if isalnum (ord x) then readIdent (acc.push x) xs else (acc, ord x, xs)

/-- The number accumulation do-while loop (main.ts lines 52-55): append the
current lookahead to the buffer, fetch, and continue while the fetched
character is a digit or `'.'` (code 46). -/
def readNum : List Int → Int → List Char → List Int × Int × List Char
  | acc, c, [] => (acc ++ [c], EOF, [])
  | acc, c, x :: xs =>
    if isdigit (ord x) || ord x == 46 then readNum (acc ++ [c]) (ord x) xs
    else (acc ++ [c], ord x, xs)

/-- The comment-skipping do-while loop (main.ts lines 63-65): fetch and
discard until `EOF`, newline (10) or carriage return (13). -/
def skipComment : List Char → Int × List Char
  | [] => (EOF, [])
  | x :: xs =>
    if ord x == 10 || ord x == 13 then (ord x, xs) else skipComment xs

/-! ## parseFloat (main.ts line 57)

JavaScript `parseFloat` applied to the lexer's number buffer: the longest
prefix of the buffer of the shape `digits [. digits]` or `. digits` is
converted exactly; if no such prefix exists the result is `NaN` (modelled as
`none`).  The buffer only ever contains digit and dot codes, so the
whitespace/sign/exponent cases of `parseFloat` cannot occur. -/

/-- Value of a (possibly empty) list of decimal digit codes. -/
def digitsToInt (ds : List Int) : Int :=
  ds.foldl (fun a d => 10 * a + (d - 48)) 0

/-- Longest-valid-prefix decimal conversion; `none` models `NaN`. -/
def parseFloat (s : List Int) : Option ℚ :=
  let d1 := s.takeWhile (fun c => isdigit c)
  let r1 := s.dropWhile (fun c => isdigit c)
  match r1 with
  | c :: r2 =>
    if c = 46 then
      let d2 := r2.takeWhile (fun c => isdigit c)
      if d1.isEmpty && d2.isEmpty then none
      else some ((digitsToInt d1 : ℚ) + (digitsToInt d2 : ℚ) / (10 : ℚ) ^ d2.length)
    else if d1.isEmpty then none
    else some ((digitsToInt d1 : ℚ))
  | [] => if d1.isEmpty then none else some ((digitsToInt d1 : ℚ))

/-! ## gettok (main.ts lines 29-80) -/

/-- Token selection for a completed identifier buffer (main.ts lines 41-47):
`"def"` and `"extern"` are keywords, anything else an identifier. -/
def identToken (idStr : String) : Int :=
  if idStr == "def" then tok_def
  else if idStr == "extern" then tok_extern
  else tok_identifier

/-- `gettok` with an explicit fuel bound on the number of comment restarts
(main.ts line 68 re-invokes `gettok` after a comment that did not reach
end-of-stream).  Each restart strictly shrinks the remaining stream, so fuel
`input.length + 1` always suffices (`gettokF_fuel_irrelevant` below). -/
def gettokF : Nat → LexSt → Int × LexSt
  | 0, s => (tok_eof, s)
  | fuel + 1, s =>
    let p := skipSpaces s.lastChar s.input
    let c := p.1
    let l := p.2
    if isalpha c then
      -- identifier: [a-zA-Z][a-zA-Z0-9]*
      let r := readIdent (String.singleton (Char.ofNat c.toNat)) l
      (identToken r.1, { s with lastChar := r.2.1, input := r.2.2, identifierStr := r.1 })
    else if isdigit c || c == 46 then
      -- Number: [0-9.]+
      let r := readNum [] c l
      (tok_number, { s with lastChar := r.2.1, input := r.2.2, numVal := parseFloat r.1 })
    else if c == 35 then
      -- Comment until end of line.
      let q := skipComment l
      if q.1 == EOF then (tok_eof, { s with lastChar := q.1, input := q.2 })
      else gettokF fuel { s with lastChar := q.1, input := q.2 }
    else if c == EOF then
      -- Check for end of file.  Don't eat the EOF.
      (tok_eof, { s with lastChar := c, input := l })
    else
      let g := getchar l
      (c, { s with lastChar := g.1, input := g.2 })

/-- `gettok`: return the next token, updating the lexer state. -/
def gettok (s : LexSt) : Int × LexSt :=
  gettokF (s.input.length + 1) s

/-- Iterated `gettok`, discarding the tokens (used to state idempotence of
the end-of-stream behaviour). -/
def gettokIter : Nat → LexSt → LexSt
  | 0, s => s
  | n + 1, s => gettokIter n (gettok s).2

/-- The initial lexer state over a given character stream: lookahead primed
with a single space (main.ts line 28). -/
def initLexSt (input : List Char) : LexSt :=
  { lastChar := 32, input := input, identifierStr := "", numVal := none }

/-! ## Abstract Syntax Tree (main.ts lines 86-144) -/

/-- Expression nodes (`ExprAST` subclasses, main.ts lines 86-126).  The
operator of a binary node is the character code of its token. -/
inductive ExprAST where
  | NumberExprAST (Val : Option ℚ)
  | VariableExprAST (Name : String)
  | BinaryExprAST (Op : Int) (LHS : ExprAST) (RHS : ExprAST)
  | CallExprAST (Callee : String) (Args : List ExprAST)

/-- `PrototypeAST` (main.ts lines 131-136). -/
structure PrototypeAST where
  Name : String
  Args : List String
deriving DecidableEq

/-- `FunctionAST` (main.ts lines 139-144). -/
structure FunctionAST where
  Proto : PrototypeAST
  Body : ExprAST

/-! ## Parser state (main.ts lines 150-182) -/

/-- The parser's view of the world: the one-token lookahead `CurTok`
(main.ts line 153), the lexer state behind it, and the diagnostic log
(each `console.error` line, in order of emission). -/
structure PS where
  curTok : Int
  st : LexSt
  log : List String
deriving DecidableEq

/-- `getNextToken` (main.ts lines 154-156): pull a token from the lexer and
store it in `CurTok`. -/
def getNextToken (ps : PS) : Int × PS :=
  let r := gettok ps.st
  (r.1, { ps with curTok := r.1, st := r.2 })

/-- `BinopPrecedence` as seeded by `main` (main.ts lines 434-437):
`'<' ↦ 10`, `'+' ↦ 20`, `'-' ↦ 30`, `'*' ↦ 40`. -/
def BinopPrecedence : Int → Option Int := fun t =>
  if t == 60 then some 10
  else if t == 43 then some 20
  else if t == 45 then some 30
  else if t == 42 then some 40
  else none

/-- `GetTokPrecedence` (main.ts lines 163-172): `-1` for an absent or
non-positive entry (the `!TokPrec || TokPrec <= 0` check). -/
def GetTokPrecedence (t : Int) : Int :=
  match BinopPrecedence t with
  | none => -1
  | some p => if p ≤ 0 then -1 else p

/-- `LogError` (main.ts lines 175-178): emit one diagnostic line and return
the absent marker. -/
def LogError (msg : String) (ps : PS) : Option ExprAST × PS :=
  (none, { ps with log := ps.log ++ ["LogError: " ++ msg] })

/-- `LogErrorP` (main.ts lines 179-182). -/
def LogErrorP (msg : String) (ps : PS) : Option PrototypeAST × PS :=
  (none, (LogError msg ps).2)

/-! ## Grammar rules (main.ts lines 184-371)

Each parse function takes a fuel bound on the recursion depth (outer `none`
= fuel exhausted; the sufficiency theorems below show that fuel
`4 * psMeasure + k` always suffices, so the bound is never what the
TypeScript code observes) and returns the parse result (`none` = the null
failure marker of the source) together with the updated state. -/

/-- `ParseNumberExpr` (main.ts lines 185-189): always succeeds, consuming
the number token. -/
def ParseNumberExpr (ps : PS) : ExprAST × PS :=
  (ExprAST.NumberExprAST ps.st.numVal, (getNextToken ps).2)

mutual

/-- `ParseExpression` (main.ts lines 304-310). -/
def ParseExpression : Nat → PS → Option (Option ExprAST × PS)
  | 0, _ => none
  | fuel + 1, ps =>
    match ParsePrimary fuel ps with
    | none => none
    | some (none, ps1) => some (none, ps1)
    | some (some lhs, ps1) => ParseBinOpRHS fuel 0 lhs ps1

/-- `ParsePrimary` (main.ts lines 250-261). -/
def ParsePrimary : Nat → PS → Option (Option ExprAST × PS)
  | 0, _ => none
  | fuel + 1, ps =>
    if ps.curTok == tok_identifier then ParseIdentifierExpr fuel ps
    else if ps.curTok == tok_number then
      let r := ParseNumberExpr ps
      some (some r.1, r.2)
    else if ps.curTok == 40 then ParseParenExpr fuel ps
    else some (LogError "unknown token when expecting an expression" ps)

/-- `ParseParenExpr` (main.ts lines 192-203). -/
def ParseParenExpr : Nat → PS → Option (Option ExprAST × PS)
  | 0, _ => none
  | fuel + 1, ps =>
    let ps1 := (getNextToken ps).2
    match ParseExpression fuel ps1 with
    | none => none
    | some (none, ps2) => some (none, ps2)
    | some (some v, ps2) =>
      if ps2.curTok == 41 then some (some v, (getNextToken ps2).2)
      else some (LogError "expected ')'" ps2)

/-- `ParseIdentifierExpr` (main.ts lines 208-244). -/
def ParseIdentifierExpr : Nat → PS → Option (Option ExprAST × PS)
  | 0, _ => none
  | fuel + 1, ps =>
    let idName := ps.st.identifierStr
    let ps1 := (getNextToken ps).2
    if ps1.curTok ≠ 40 then some (some (ExprAST.VariableExprAST idName), ps1)
    else
      let ps2 := (getNextToken ps1).2
      if ps2.curTok == 41 then
        some (some (ExprAST.CallExprAST idName []), (getNextToken ps2).2)
      else
        match ParseArgsLoop fuel ps2 [] with
        | none => none
        | some (none, ps3) => some (none, ps3)
        | some (some args, ps3) =>
          some (some (ExprAST.CallExprAST idName args), (getNextToken ps3).2)

/-- The argument-collection loop inside `ParseIdentifierExpr` (main.ts lines
221-237): parse an expression, then break on `')'`, fail on anything other
than `','`, or consume the `','` and continue. -/
def ParseArgsLoop : Nat → PS → List ExprAST → Option (Option (List ExprAST) × PS)
  | 0, _, _ => none
  | fuel + 1, ps, acc =>
    match ParseExpression fuel ps with
    | none => none
    | some (none, ps1) => some (none, ps1)
    | some (some arg, ps1) =>
      let acc1 := acc ++ [arg]
      if ps1.curTok == 41 then some (some acc1, ps1)
      else if ps1.curTok ≠ 44 then
        some (none, (LogError "Expected ')' or ',' in argument list" ps1).2)
      else ParseArgsLoop fuel (getNextToken ps1).2 acc1

/-- `ParseBinOpRHS` (main.ts lines 265-299): precedence climbing; the while
loop is the tail call with unchanged `exprPrec`. -/
def ParseBinOpRHS : Nat → Int → ExprAST → PS → Option (Option ExprAST × PS)
  | 0, _, _, _ => none
  | fuel + 1, exprPrec, lhs, ps =>
    let tokPrec := GetTokPrecedence ps.curTok
    if tokPrec < exprPrec then some (some lhs, ps)
    else
      let binOp := ps.curTok
      let ps1 := (getNextToken ps).2
      match ParsePrimary fuel ps1 with
      | none => none
      | some (none, ps2) => some (none, ps2)
      | some (some rhs, ps2) =>
        let nextPrec := GetTokPrecedence ps2.curTok
        if tokPrec < nextPrec then
          match ParseBinOpRHS fuel (tokPrec + 1) rhs ps2 with
          | none => none
          | some (none, ps3) => some (none, ps3)
          | some (some rhs1, ps3) =>
            ParseBinOpRHS fuel exprPrec (ExprAST.BinaryExprAST binOp lhs rhs1) ps3
        else
          ParseBinOpRHS fuel exprPrec (ExprAST.BinaryExprAST binOp lhs rhs) ps2

end

/-- The parameter-name collection loop of `ParsePrototype` (main.ts lines
327-330): `while (getNextToken() === tok_identifier) push(IdentifierStr)`. -/
def ProtoArgsLoop : Nat → PS → List String → Option (List String × PS)
  | 0, _, _ => none
  | fuel + 1, ps, acc =>
    let r := getNextToken ps
    if r.1 == tok_identifier then ProtoArgsLoop fuel r.2 (acc ++ [r.2.st.identifierStr])
    else some (acc, r.2)

/-- `ParsePrototype` (main.ts lines 314-339). -/
def ParsePrototype : Nat → PS → Option (Option PrototypeAST × PS)
  | 0, _ => none
  | fuel + 1, ps =>
    if ps.curTok ≠ tok_identifier then
      some (LogErrorP "Expected function name in prototype" ps)
    else
      let fnName := ps.st.identifierStr
      let ps1 := (getNextToken ps).2
      if ps1.curTok ≠ 40 then some (LogErrorP "Expected '(' in prototype" ps1)
      else
        match ProtoArgsLoop fuel ps1 [] with
        | none => none
        | some (args, ps2) =>
          if ps2.curTok ≠ 41 then some (LogErrorP "Expected ')' in prototype" ps2)
          else some (some { Name := fnName, Args := args }, (getNextToken ps2).2)

/-- `ParseDefinition` (main.ts lines 342-354). -/
def ParseDefinition : Nat → PS → Option (Option FunctionAST × PS)
  | 0, _ => none
  | fuel + 1, ps =>
    let ps1 := (getNextToken ps).2
    match ParsePrototype fuel ps1 with
    | none => none
    | some (none, ps2) => some (none, ps2)
    | some (some proto, ps2) =>
      match ParseExpression fuel ps2 with
      | none => none
      | some (none, ps3) => some (none, ps3)
      | some (some e, ps3) => some (some { Proto := proto, Body := e }, ps3)

/-- `ParseTopLevelExpr` (main.ts lines 357-365): wrap a bare expression in an
anonymous prototype. -/
def ParseTopLevelExpr (fuel : Nat) (ps : PS) : Option (Option FunctionAST × PS) :=
  match ParseExpression fuel ps with
  | none => none
  | some (none, ps1) => some (none, ps1)
  | some (some e, ps1) =>
    some (some { Proto := { Name := "", Args := [] }, Body := e }, ps1)

/-- `ParseExtern` (main.ts lines 368-371). -/
def ParseExtern : Nat → PS → Option (Option PrototypeAST × PS)
  | 0, _ => none
  | fuel + 1, ps =>
    let ps1 := (getNextToken ps).2
    ParsePrototype fuel ps1

/-! ## Top-level parsing and driver (main.ts lines 377-448) -/

/-- `HandleDefinition` (main.ts lines 377-384): on success report, on
failure skip one token for error recovery. -/
def HandleDefinition (fuel : Nat) (ps : PS) : Option PS :=
  match ParseDefinition fuel ps with
  | none => none
  | some (some _, ps1) =>
    some { ps1 with log := ps1.log ++ ["Parsed a function definition."] }
  | some (none, ps1) => some (getNextToken ps1).2

/-- `HandleExtern` (main.ts lines 386-393). -/
def HandleExtern (fuel : Nat) (ps : PS) : Option PS :=
  match ParseExtern fuel ps with
  | none => none
  | some (some _, ps1) => some { ps1 with log := ps1.log ++ ["Parsed an extern"] }
  | some (none, ps1) => some (getNextToken ps1).2

/-- `HandleTopLevelExpression` (main.ts lines 395-402). -/
def HandleTopLevelExpression (fuel : Nat) (ps : PS) : Option PS :=
  match ParseTopLevelExpr fuel ps with
  | none => none
  | some (some _, ps1) => some { ps1 with log := ps1.log ++ ["Parsed a top-level expr"] }
  | some (none, ps1) => some (getNextToken ps1).2

/-- `MainLoop` (main.ts lines 406-425): dispatch on the current token until
end-of-stream. -/
def MainLoop : Nat → PS → Option PS
  | 0, _ => none
  | fuel + 1, ps =>
    if ps.curTok == tok_eof then some ps
    else if ps.curTok == 59 then MainLoop fuel (getNextToken ps).2
    else if ps.curTok == tok_def then
      match HandleDefinition fuel ps with
      | none => none
      | some ps1 => MainLoop fuel ps1
    else if ps.curTok == tok_extern then
      match HandleExtern fuel ps with
      | none => none
      | some ps1 => MainLoop fuel ps1
    else
      match HandleTopLevelExpression fuel ps with
      | none => none
      | some ps1 => MainLoop fuel ps1

/-- The parser state right after `main` primed the first token
(main.ts line 440). -/
def initPS (input : List Char) : PS :=
  let r := gettok (initLexSt input)
  { curTok := r.1, st := r.2, log := [] }

/-- `main` (main.ts lines 431-448): seed the precedence table (hard-wired in
`BinopPrecedence` above), prime the first token, run the driver loop, and
return exit status 0. -/
def mainF (fuel : Nat) (input : List Char) : Option Int :=
  match MainLoop fuel (initPS input) with
  | none => none
  | some _ => some 0

/-! ## Measures used by the termination arguments -/

/-- Lexer progress measure: characters still unread, plus one if the
lookahead has not yet hit the end sentinel.  Every token produced other than
end-of-stream strictly decreases it. -/
def lexMeasure (s : LexSt) : Nat :=
  s.input.length + (if s.lastChar = EOF then 0 else 1)

/-- Parser progress measure: every `getNextToken` from a state whose current
token is not end-of-stream strictly decreases it. -/
def psMeasure (ps : PS) : Nat :=
  2 * lexMeasure ps.st + (if ps.curTok = tok_eof then 0 else 1)

/-- Measure of a lookahead/stream pair (the components `skipSpaces` and the
scanning loops operate on). -/
def chm (c : Int) (l : List Char) : Nat :=
  l.length + (if c = EOF then 0 else 1)

/-! ## Lexer lemmas -/

theorem isspace_eof : isspace EOF = false := by decide

theorem isalpha_eof : isalpha EOF = false := by decide

theorem isspace_ne_eof {c : Int} (h : isspace c = true) : c ≠ EOF := by
  intro hc
  subst hc
  rw [isspace_eof] at h
  cases h

theorem ord_ne_eof (x : Char) : ord x ≠ EOF := by
  have : (0 : Int) ≤ ord x := Int.ofNat_nonneg _
  intro h
  rw [h] at this
  norm_num [EOF] at this

theorem lexMeasure_eq_chm (s : LexSt) : lexMeasure s = chm s.lastChar s.input := rfl

theorem skipSpaces_chm (c : Int) (l : List Char) :
    chm (skipSpaces c l).1 (skipSpaces c l).2 ≤ chm c l := by
  induction l generalizing c with
  | nil =>
    by_cases h : isspace c = true
    · have hc := isspace_ne_eof h
      simp [skipSpaces, h, chm, EOF, hc]
    · simp at h
      simp [skipSpaces, h]
  | cons x xs ih =>
    by_cases h : isspace c = true
    · have hc := isspace_ne_eof h
      calc chm (skipSpaces c (x :: xs)).1 (skipSpaces c (x :: xs)).2
          = chm (skipSpaces (ord x) xs).1 (skipSpaces (ord x) xs).2 := by
            simp [skipSpaces, h]
        _ ≤ chm (ord x) xs := ih (ord x)
        _ ≤ chm c (x :: xs) := by simp [chm, hc]; split <;> omega
    · simp at h
      simp [skipSpaces, h]

theorem skipSpaces_length_le (c : Int) (l : List Char) :
    (skipSpaces c l).2.length ≤ l.length := by
  induction l generalizing c with
  | nil =>
    by_cases h : isspace c = true <;> simp [skipSpaces, h]
  | cons x xs ih =>
    by_cases h : isspace c = true
    · simpa [skipSpaces, h] using le_trans (ih (ord x)) (by omega)
    · simp [skipSpaces, h]

theorem readIdent_chm (acc : String) (l : List Char) :
    chm (readIdent acc l).2.1 (readIdent acc l).2.2 ≤ l.length := by
  induction l generalizing acc with
  | nil => simp [readIdent, chm, EOF]
  | cons x xs ih =>
    by_cases h : isalnum (ord x) = true
    · simpa [readIdent, h] using le_trans (ih (acc.push x)) (by omega)
    · simp [readIdent, h, chm, ord_ne_eof x]

theorem readNum_chm (acc : List Int) (c : Int) (l : List Char) :
    chm (readNum acc c l).2.1 (readNum acc c l).2.2 ≤ l.length := by
  induction l generalizing acc c with
  | nil => simp [readNum, chm, EOF]
  | cons x xs ih =>
    by_cases h : (isdigit (ord x) || ord x == 46) = true
    · simpa [readNum, h] using le_trans (ih (acc ++ [c]) (ord x)) (by omega)
    · simp [readNum, h, chm, ord_ne_eof x]

theorem skipComment_chm (l : List Char) :
    chm (skipComment l).1 (skipComment l).2 ≤ l.length := by
  induction l with
  | nil => simp [skipComment, chm, EOF]
  | cons x xs ih =>
    by_cases h : (ord x == 10 || ord x == 13) = true
    · simp [skipComment, h, chm, ord_ne_eof x]
    · simpa [skipComment, h] using le_trans ih (by omega)

theorem skipComment_ne_eof_lt {l : List Char} (h : (skipComment l).1 ≠ EOF) :
    (skipComment l).2.length < l.length := by
  have := skipComment_chm l
  simp [chm, h] at this
  omega

theorem isalpha_ne_eof {c : Int} (h : isalpha c = true) : c ≠ EOF := by
  intro hc
  subst hc
  rw [isalpha_eof] at h
  cases h

theorem numcond_ne_eof {c : Int} (h : (isdigit c || c == 46) = true) : c ≠ EOF := by
  intro hc
  subst hc
  revert h
  decide

theorem length_le_chm (c : Int) (l : List Char) : l.length ≤ chm c l := by
  unfold chm
  split <;> omega

theorem chm_ne_eof {c : Int} (l : List Char) (h : c ≠ EOF) :
    chm c l = l.length + 1 := by
  simp [chm, h]


theorem chm_cons_le (c : Int) (x : Char) (xs : List Char) :
    chm (ord x) xs ≤ chm c (x :: xs) := by
  have hx := ord_ne_eof x
  unfold chm
  rw [if_neg hx]
  simp only [List.length_cons]
  split <;> omega

theorem gettokF_le (fuel : Nat) (s : LexSt) :
    lexMeasure (gettokF fuel s).2 ≤ lexMeasure s := by
  induction fuel generalizing s with
  | zero => simp [gettokF]
  | succ n ih =>
    rcases hp : skipSpaces s.lastChar s.input with ⟨c, l⟩
    have hss : chm c l ≤ lexMeasure s := by
      have h0 := skipSpaces_chm s.lastChar s.input
      rw [hp] at h0
      rw [lexMeasure_eq_chm]
      exact h0
    have hl : l.length ≤ lexMeasure s := le_trans (length_le_chm c l) hss
    simp only [gettokF, hp]
    by_cases h1 : isalpha c = true
    · rw [if_pos h1]
      refine le_trans ?_ hl
      simpa [lexMeasure_eq_chm] using
        readIdent_chm (String.singleton (Char.ofNat c.toNat)) l
    · rw [if_neg h1]
      by_cases h2 : (isdigit c || c == 46) = true
      · rw [if_pos h2]
        refine le_trans ?_ hl
        simpa [lexMeasure_eq_chm] using readNum_chm [] c l
      · rw [if_neg h2]
        by_cases h3 : (c == 35) = true
        · rw [if_pos h3]
          by_cases h4 : ((skipComment l).1 == EOF) = true
          · rw [if_pos h4]
            refine le_trans ?_ hl
            simpa [lexMeasure_eq_chm] using skipComment_chm l
          · rw [if_neg h4]
            refine le_trans (ih _) (le_trans ?_ hl)
            simpa [lexMeasure_eq_chm] using skipComment_chm l
        · rw [if_neg h3]
          by_cases h5 : (c == EOF) = true
          · rw [if_pos h5]
            simpa [lexMeasure_eq_chm] using hss
          · rw [if_neg h5]
            cases l with
            | nil => simp [getchar, lexMeasure_eq_chm, chm]
            | cons x xs =>
              refine le_trans ?_ hss
              simpa [getchar, lexMeasure_eq_chm] using chm_cons_le c x xs

theorem gettokF_lt (fuel : Nat) (s : LexSt) (h : (gettokF fuel s).1 ≠ tok_eof) :
    lexMeasure (gettokF fuel s).2 < lexMeasure s := by
  cases fuel with
  | zero => simp [gettokF] at h
  | succ n =>
    rcases hp : skipSpaces s.lastChar s.input with ⟨c, l⟩
    have hss : chm c l ≤ lexMeasure s := by
      have h0 := skipSpaces_chm s.lastChar s.input
      rw [hp] at h0
      rw [lexMeasure_eq_chm]
      exact h0
    simp only [gettokF, hp] at h ⊢
    by_cases h1 : isalpha c = true
    · rw [if_pos h1]
      have hne := isalpha_ne_eof h1
      rw [chm_ne_eof l hne] at hss
      have hb := readIdent_chm (String.singleton (Char.ofNat c.toNat)) l
      refine lt_of_le_of_lt (by simpa [lexMeasure_eq_chm] using hb) ?_
      omega
    · rw [if_neg h1] at h ⊢
      by_cases h2 : (isdigit c || c == 46) = true
      · rw [if_pos h2]
        have hne := numcond_ne_eof h2
        rw [chm_ne_eof l hne] at hss
        have hb := readNum_chm [] c l
        refine lt_of_le_of_lt (by simpa [lexMeasure_eq_chm] using hb) ?_
        omega
      · rw [if_neg h2] at h ⊢
        by_cases h3 : (c == 35) = true
        · rw [if_pos h3] at h ⊢
          have hne : c ≠ EOF := by
            intro hc
            rw [hc] at h3
            revert h3
            decide
          rw [chm_ne_eof l hne] at hss
          have hb := skipComment_chm l
          by_cases h4 : ((skipComment l).1 == EOF) = true
          · rw [if_pos h4] at h
            simp at h
          · rw [if_neg h4]
            refine lt_of_le_of_lt (gettokF_le n _) ?_
            refine lt_of_le_of_lt (by simpa [lexMeasure_eq_chm] using hb) ?_
            omega
        · rw [if_neg h3] at h ⊢
          by_cases h5 : (c == EOF) = true
          · rw [if_pos h5] at h
            simp at h
          · rw [if_neg h5]
            have hne : c ≠ EOF := by simpa using h5
            rw [chm_ne_eof l hne] at hss
            cases l with
            | nil =>
              simp only [List.length_nil] at hss
              show lexMeasure { s with lastChar := EOF, input := ([] : List Char) } < lexMeasure s
              have h0 : lexMeasure { s with lastChar := EOF, input := ([] : List Char) } = 0 := by
                simp [lexMeasure, EOF]
              rw [h0]
              omega
            | cons x xs =>
              have hx := ord_ne_eof x
              simp only [List.length_cons] at hss
              show lexMeasure { s with lastChar := ord x, input := xs } < lexMeasure s
              have h0 : lexMeasure { s with lastChar := ord x, input := xs } = chm (ord x) xs := rfl
              rw [h0, chm_ne_eof xs hx]
              omega

theorem gettok_le (s : LexSt) : lexMeasure (gettok s).2 ≤ lexMeasure s :=
  gettokF_le _ s

theorem gettok_lt (s : LexSt) (h : (gettok s).1 ≠ tok_eof) :
    lexMeasure (gettok s).2 < lexMeasure s :=
  gettokF_lt _ s h

theorem gettokF_fuel_irrelevant (f1 : Nat) :
    ∀ (f2 : Nat) (s : LexSt), s.input.length < f1 → s.input.length < f2 →
      gettokF f1 s = gettokF f2 s := by
  induction f1 with
  | zero =>
    intro f2 s h1 _
    omega
  | succ n ih =>
    intro f2 s h1 h2
    cases f2 with
    | zero => omega
    | succ m =>
      rcases hp : skipSpaces s.lastChar s.input with ⟨c, l⟩
      have hll : l.length ≤ s.input.length := by
        have h0 := skipSpaces_length_le s.lastChar s.input
        rw [hp] at h0
        exact h0
      simp only [gettokF, hp]
      split_ifs with hA hB hC hD hE
      case pos => rfl
      case pos => rfl
      case pos => rfl
      case neg =>
        have hlt : (skipComment l).2.length < l.length :=
          skipComment_ne_eof_lt (by simpa using hD)
        exact ih m _ (by simp; omega) (by simp; omega)
      case pos => rfl
      case neg => rfl

theorem gettok_eof_fixed {s : LexSt} (h : s.lastChar = EOF) :
    gettok s = (tok_eof, s) := by
  obtain ⟨c0, l0, i0, v0⟩ := s
  simp only at h
  subst h
  have hsp : skipSpaces EOF l0 = (EOF, l0) := by
    cases l0 <;> simp [skipSpaces, isspace_eof]
  have e1 : (isdigit EOF || EOF == 46) = false := by decide
  have e2 : (EOF == 35) = false := by decide
  have e3 : (EOF == EOF) = true := by decide
  show gettokF (l0.length + 1) ⟨EOF, l0, i0, v0⟩ = (tok_eof, ⟨EOF, l0, i0, v0⟩)
  simp [gettokF, hsp, isalpha_eof, e1, e2, e3]

/-- C3: once the character source is exhausted and the lexer's lookahead
holds the end-of-stream sentinel, every subsequent `gettok` call returns the
end-of-stream token and leaves the entire lexer state — the lookahead
character and the (empty) remaining stream included — unchanged, so no
further characters are consumed; this persists over arbitrarily many
repeated calls. -/
theorem claim_C3 (s : LexSt) (hin : s.input = []) (hlc : s.lastChar = EOF) :
    (gettok s).1 = tok_eof ∧ (gettok s).2 = s ∧ ∀ n : Nat, gettokIter n s = s := by
  have hfix := gettok_eof_fixed hlc
  refine ⟨by rw [hfix], by rw [hfix], ?_⟩
  intro n
  induction n with
  | zero => rfl
  | succ k ihk =>
    show gettokIter k (gettok s).2 = s
    rw [hfix]
    exact ihk

/-- Witness for C3 at the concrete exhausted state. -/
theorem claim_C3_witness :
    (gettok ⟨EOF, [], "", none⟩).1 = tok_eof ∧
      gettokIter 3 ⟨EOF, [], "", none⟩ = ⟨EOF, [], "", none⟩ :=
  ⟨(claim_C3 ⟨EOF, [], "", none⟩ rfl rfl).1,
   (claim_C3 ⟨EOF, [], "", none⟩ rfl rfl).2.2 3⟩

/-- C4: lexing `"3.14"` yields a single number token whose value is exactly
`3.14 = 157/50`, and lexing `"3.1.4"` yields a single number token whose
value is `3.1 = 31/10` — the scanner buffers the whole maximal digit/dot run
(the follow-up call hits end-of-stream in both cases) and the text-to-float
conversion silently takes the longest valid prefix, stopping at the second
dot. -/
theorem claim_C4 :
    (gettok (initLexSt "3.14".data)).1 = tok_number ∧
    (gettok (initLexSt "3.14".data)).2.numVal = some (157 / 50 : ℚ) ∧
    (gettok (gettok (initLexSt "3.14".data)).2).1 = tok_eof ∧
    (gettok (initLexSt "3.1.4".data)).1 = tok_number ∧
    (gettok (initLexSt "3.1.4".data)).2.numVal = some (31 / 10 : ℚ) ∧
    (gettok (gettok (initLexSt "3.1.4".data)).2).1 = tok_eof := by
  refine ⟨?_, ?_, ?_, ?_, ?_, ?_⟩ <;> with_unfolding_all rfl

/-- C5: lexing `"# comment\n42"` produces exactly one token before
end-of-stream — a number token with value `42` (the whole comment is
discarded without emitting anything) — and a comment that runs to
end-of-stream (`"# comment"`) makes the same call return the end-of-stream
token. -/
theorem claim_C5 :
    (gettok (initLexSt ("# comment\n42".data))).1 = tok_number ∧
    (gettok (initLexSt ("# comment\n42".data))).2.numVal = some (42 : ℚ) ∧
    (gettok (gettok (initLexSt ("# comment\n42".data))).2).1 = tok_eof ∧
    (gettok (initLexSt ("# comment".data))).1 = tok_eof := by
  refine ⟨?_, ?_, ?_, ?_⟩ <;> with_unfolding_all rfl

/-- C10: a maximal digit/dot run containing no digit at all still becomes a
number token, but its stored value is `NaN` (modelled as `none`): the
permissive conversion finds no valid numeric prefix.  Stated generally for
any digit-free buffer, plus the concrete single-dot input `"."`. -/
theorem claim_C10 :
    (∀ s : List Int, (∀ c ∈ s, isdigit c = false) → parseFloat s = none) ∧
    (gettok (initLexSt ".".data)).1 = tok_number ∧
    (gettok (initLexSt ".".data)).2.numVal = none := by
  refine ⟨?_, by with_unfolding_all rfl, by with_unfolding_all rfl⟩
  intro s h
  have hd1 : s.takeWhile (fun c => isdigit c) = [] := by
    cases s with
    | nil => rfl
    | cons a as => simp [List.takeWhile_cons, h a (by simp)]
  have hr1 : s.dropWhile (fun c => isdigit c) = s := by
    cases s with
    | nil => rfl
    | cons a as => simp [List.dropWhile_cons, h a (by simp)]
  simp only [parseFloat]
  rw [hd1, hr1]
  cases s with
  | nil => rfl
  | cons a as =>
    by_cases h46 : a = 46
    · subst h46
      have hd2 : as.takeWhile (fun c => isdigit c) = [] := by
        cases as with
        | nil => rfl
        | cons b bs => simp [List.takeWhile_cons, h b (by simp)]
      simp [hd2]
    · simp [h46]

/-- Witness for the general conjunct of C10, at the two-dot buffer. -/
theorem claim_C10_witness : parseFloat [46, 46] = none :=
  claim_C10.1 [46, 46] (by decide)

/-! ## Parser progress lemmas

`psMeasure` never increases across any parser operation, and strictly
decreases across `getNextToken` whenever the current token is not
end-of-stream.  These facts drive the termination of the driver loop. -/

theorem psMeasure_getNextToken_le (ps : PS) :
    psMeasure (getNextToken ps).2 ≤ psMeasure ps := by
  have hle := gettok_le ps.st
  show 2 * lexMeasure (gettok ps.st).2 + (if (gettok ps.st).1 = tok_eof then 0 else 1) ≤
    2 * lexMeasure ps.st + (if ps.curTok = tok_eof then 0 else 1)
  by_cases ht : (gettok ps.st).1 = tok_eof
  · rw [if_pos ht]
    split <;> omega
  · have hlt := gettok_lt ps.st ht
    rw [if_neg ht]
    split <;> omega

theorem psMeasure_getNextToken_lt (ps : PS) (h : ps.curTok ≠ tok_eof) :
    psMeasure (getNextToken ps).2 < psMeasure ps := by
  have hle := gettok_le ps.st
  show 2 * lexMeasure (gettok ps.st).2 + (if (gettok ps.st).1 = tok_eof then 0 else 1) <
    2 * lexMeasure ps.st + (if ps.curTok = tok_eof then 0 else 1)
  rw [if_neg h]
  by_cases ht : (gettok ps.st).1 = tok_eof
  · rw [if_pos ht]
    omega
  · have hlt := gettok_lt ps.st ht
    rw [if_neg ht]
    omega

theorem psMeasure_log (ps : PS) (L : List String) :
    psMeasure { ps with log := L } = psMeasure ps := rfl

theorem parserMono (fuel : Nat) :
    (∀ ps r ps1, ParseExpression fuel ps = some (r, ps1) → psMeasure ps1 ≤ psMeasure ps) ∧
    (∀ ps r ps1, ParsePrimary fuel ps = some (r, ps1) → psMeasure ps1 ≤ psMeasure ps) ∧
    (∀ ps r ps1, ParseParenExpr fuel ps = some (r, ps1) → psMeasure ps1 ≤ psMeasure ps) ∧
    (∀ ps r ps1, ParseIdentifierExpr fuel ps = some (r, ps1) → psMeasure ps1 ≤ psMeasure ps) ∧
    (∀ ps acc r ps1, ParseArgsLoop fuel ps acc = some (r, ps1) → psMeasure ps1 ≤ psMeasure ps) ∧
    (∀ prec lhs ps r ps1, ParseBinOpRHS fuel prec lhs ps = some (r, ps1) →
      psMeasure ps1 ≤ psMeasure ps) := by
  induction fuel with
  | zero =>
    refine ⟨?_, ?_, ?_, ?_, ?_, ?_⟩ <;> intro ps <;> intros <;>
      simp_all [ParseExpression, ParsePrimary, ParseParenExpr, ParseIdentifierExpr,
        ParseArgsLoop, ParseBinOpRHS]
  | succ n ih =>
    obtain ⟨ihE, ihP, ihPar, ihI, ihA, ihB⟩ := ih
    refine ⟨?_, ?_, ?_, ?_, ?_, ?_⟩
    · -- ParseExpression
      intro ps r ps1 h
      simp only [ParseExpression] at h
      rcases hP : ParsePrimary n ps with _ | ⟨r0, psA⟩
      · rw [hP] at h
        simp at h
      · rw [hP] at h
        have hA := ihP ps r0 psA hP
        rcases r0 with _ | lhs
        · simp only [Option.some.injEq, Prod.mk.injEq] at h
          obtain ⟨-, h2⟩ := h
          subst h2
          exact hA
        · exact le_trans (ihB 0 lhs psA r ps1 h) hA
    · -- ParsePrimary
      intro ps r ps1 h
      simp only [ParsePrimary] at h
      split_ifs at h with h1 h2 h3
      · exact ihI ps r ps1 h
      · simp only [Option.some.injEq, Prod.mk.injEq] at h
        obtain ⟨-, h2'⟩ := h
        subst h2'
        exact psMeasure_getNextToken_le ps
      · exact ihPar ps r ps1 h
      · simp only [Option.some.injEq, LogError, Prod.mk.injEq] at h
        obtain ⟨-, h2'⟩ := h
        subst h2'
        exact le_of_eq (psMeasure_log ps _)
    · -- ParseParenExpr
      intro ps r ps1 h
      simp only [ParseParenExpr] at h
      have hA := psMeasure_getNextToken_le ps
      rcases hE : ParseExpression n (getNextToken ps).2 with _ | ⟨r0, psB⟩
      · rw [hE] at h
        simp at h
      · rw [hE] at h
        have hB := le_trans (ihE _ r0 psB hE) hA
        rcases r0 with _ | v
        · simp only [Option.some.injEq, Prod.mk.injEq] at h
          obtain ⟨-, h2⟩ := h
          subst h2
          exact hB
        · simp only [] at h
          split_ifs at h with h41
          · simp only [Option.some.injEq, Prod.mk.injEq] at h
            obtain ⟨-, h2⟩ := h
            subst h2
            exact le_trans (psMeasure_getNextToken_le psB) hB
          · simp only [Option.some.injEq, LogError, Prod.mk.injEq] at h
            obtain ⟨-, h2⟩ := h
            subst h2
            exact hB
    · -- ParseIdentifierExpr
      intro ps r ps1 h
      simp only [ParseIdentifierExpr] at h
      have hA := psMeasure_getNextToken_le ps
      split_ifs at h with hne h41
      · simp only [Option.some.injEq, Prod.mk.injEq] at h
        obtain ⟨-, h2⟩ := h
        subst h2
        exact hA
      · simp only [Option.some.injEq, Prod.mk.injEq] at h
        obtain ⟨-, h2⟩ := h
        subst h2
        exact le_trans (psMeasure_getNextToken_le _)
          (le_trans (psMeasure_getNextToken_le _) hA)
      · rcases hAr : ParseArgsLoop n (getNextToken (getNextToken ps).2).2 [] with _ | ⟨r0, psC⟩
        · rw [hAr] at h
          simp at h
        · rw [hAr] at h
          have hC := le_trans (ihA _ [] r0 psC hAr)
            (le_trans (psMeasure_getNextToken_le _) hA)
          rcases r0 with _ | args
          · simp only [Option.some.injEq, Prod.mk.injEq] at h
            obtain ⟨-, h2⟩ := h
            subst h2
            exact hC
          · simp only [Option.some.injEq, Prod.mk.injEq] at h
            obtain ⟨-, h2⟩ := h
            subst h2
            exact le_trans (psMeasure_getNextToken_le psC) hC
    · -- ParseArgsLoop
      intro ps acc r ps1 h
      simp only [ParseArgsLoop] at h
      rcases hE : ParseExpression n ps with _ | ⟨r0, psA⟩
      · rw [hE] at h
        simp at h
      · rw [hE] at h
        have hA := ihE ps r0 psA hE
        rcases r0 with _ | arg
        · simp only [Option.some.injEq, Prod.mk.injEq] at h
          obtain ⟨-, h2⟩ := h
          subst h2
          exact hA
        · simp only [] at h
          split_ifs at h with h41 h44
          · simp only [Option.some.injEq, Prod.mk.injEq] at h
            obtain ⟨-, h2⟩ := h
            subst h2
            exact hA
          · simp only [Option.some.injEq, LogError, Prod.mk.injEq] at h
            obtain ⟨-, h2⟩ := h
            subst h2
            exact hA
          · exact le_trans (ihA _ _ r ps1 h) (le_trans (psMeasure_getNextToken_le psA) hA)
    · -- ParseBinOpRHS
      intro prec lhs ps r ps1 h
      simp only [ParseBinOpRHS] at h
      split_ifs at h with hlt
      · simp only [Option.some.injEq, Prod.mk.injEq] at h
        obtain ⟨-, h2⟩ := h
        subst h2
        exact le_refl _
      · have hA := psMeasure_getNextToken_le ps
        rcases hP : ParsePrimary n (getNextToken ps).2 with _ | ⟨r0, psB⟩
        · rw [hP] at h
          simp at h
        · rw [hP] at h
          have hB := le_trans (ihP _ r0 psB hP) hA
          rcases r0 with _ | rhs
          · simp only [Option.some.injEq, Prod.mk.injEq] at h
            obtain ⟨-, h2⟩ := h
            subst h2
            exact hB
          · simp only [] at h
            split_ifs at h with hclimb
            · rcases hR : ParseBinOpRHS n (GetTokPrecedence ps.curTok + 1) rhs psB
                  with _ | ⟨r1, psC⟩
              · rw [hR] at h
                simp at h
              · rw [hR] at h
                have hC := le_trans (ihB _ rhs psB r1 psC hR) hB
                rcases r1 with _ | rhs1
                · simp only [Option.some.injEq, Prod.mk.injEq] at h
                  obtain ⟨-, h2⟩ := h
                  subst h2
                  exact hC
                · exact le_trans (ihB _ _ psC r ps1 h) hC
            · exact le_trans (ihB _ _ psB r ps1 h) hB

theorem protoArgsLoopMono (fuel : Nat) :
    ∀ (ps : PS) (acc r : List String) (ps1 : PS),
      ProtoArgsLoop fuel ps acc = some (r, ps1) → psMeasure ps1 ≤ psMeasure ps := by
  induction fuel with
  | zero =>
    intro ps acc r ps1 h
    simp [ProtoArgsLoop] at h
  | succ n ih =>
    intro ps acc r ps1 h
    simp only [ProtoArgsLoop] at h
    split_ifs at h with hid
    · exact le_trans (ih _ _ r ps1 h) (psMeasure_getNextToken_le ps)
    · simp only [Option.some.injEq, Prod.mk.injEq] at h
      obtain ⟨-, h2⟩ := h
      subst h2
      exact psMeasure_getNextToken_le ps

theorem parsePrototypeMono (fuel : Nat) (ps : PS) (r : Option PrototypeAST) (ps1 : PS)
    (h : ParsePrototype fuel ps = some (r, ps1)) : psMeasure ps1 ≤ psMeasure ps := by
  cases fuel with
  | zero => simp [ParsePrototype] at h
  | succ n =>
    simp only [ParsePrototype] at h
    split_ifs at h with h1 h2
    · simp only [Option.some.injEq, LogErrorP, LogError, Prod.mk.injEq] at h
      obtain ⟨-, h2⟩ := h
      subst h2
      exact le_of_eq (psMeasure_log ps _)
    · simp only [Option.some.injEq, LogErrorP, LogError, Prod.mk.injEq] at h
      obtain ⟨-, h2'⟩ := h
      subst h2'
      exact psMeasure_getNextToken_le ps
    · rcases hA : ProtoArgsLoop n (getNextToken ps).2 [] with _ | ⟨args, psB⟩
      · rw [hA] at h
        simp at h
      · rw [hA] at h
        have hB := le_trans (protoArgsLoopMono n _ [] args psB hA)
          (psMeasure_getNextToken_le ps)
        simp only [] at h
        split_ifs at h with h41
        · simp only [Option.some.injEq, LogErrorP, LogError, Prod.mk.injEq] at h
          obtain ⟨-, h2'⟩ := h
          subst h2'
          exact hB
        · simp only [Option.some.injEq, Prod.mk.injEq] at h
          obtain ⟨-, h2'⟩ := h
          subst h2'
          exact le_trans (psMeasure_getNextToken_le psB) hB

theorem parseDefinitionMono (fuel : Nat) (ps : PS) (r : Option FunctionAST) (ps1 : PS)
    (h : ParseDefinition fuel ps = some (r, ps1)) : psMeasure ps1 ≤ psMeasure ps := by
  cases fuel with
  | zero => simp [ParseDefinition] at h
  | succ n =>
    simp only [ParseDefinition] at h
    rcases hP : ParsePrototype n (getNextToken ps).2 with _ | ⟨r0, psB⟩
    · rw [hP] at h
      simp at h
    · rw [hP] at h
      have hB := le_trans (parsePrototypeMono n _ r0 psB hP) (psMeasure_getNextToken_le ps)
      rcases r0 with _ | proto
      · simp only [Option.some.injEq, Prod.mk.injEq] at h
        obtain ⟨-, h2⟩ := h
        subst h2
        exact hB
      · simp only [] at h
        rcases hE : ParseExpression n psB with _ | ⟨r1, psC⟩
        · rw [hE] at h
          simp at h
        · rw [hE] at h
          have hC := le_trans ((parserMono n).1 psB r1 psC hE) hB
          rcases r1 with _ | e
          · simp only [Option.some.injEq, Prod.mk.injEq] at h
            obtain ⟨-, h2⟩ := h
            subst h2
            exact hC
          · simp only [Option.some.injEq, Prod.mk.injEq] at h
            obtain ⟨-, h2⟩ := h
            subst h2
            exact hC

theorem parseExternMono (fuel : Nat) (ps : PS) (r : Option PrototypeAST) (ps1 : PS)
    (h : ParseExtern fuel ps = some (r, ps1)) : psMeasure ps1 ≤ psMeasure ps := by
  cases fuel with
  | zero => simp [ParseExtern] at h
  | succ n =>
    simp only [ParseExtern] at h
    exact le_trans (parsePrototypeMono n _ r ps1 h) (psMeasure_getNextToken_le ps)

theorem parseTopLevelExprMono (fuel : Nat) (ps : PS) (r : Option FunctionAST) (ps1 : PS)
    (h : ParseTopLevelExpr fuel ps = some (r, ps1)) : psMeasure ps1 ≤ psMeasure ps := by
  simp only [ParseTopLevelExpr] at h
  rcases hE : ParseExpression fuel ps with _ | ⟨r0, psA⟩
  · rw [hE] at h
    simp at h
  · rw [hE] at h
    have hA := (parserMono fuel).1 ps r0 psA hE
    rcases r0 with _ | e <;>
      simp only [Option.some.injEq, Prod.mk.injEq] at h <;>
      obtain ⟨-, h2⟩ := h <;> subst h2 <;> exact hA

/-! ## Strict decrease across parsed constructs -/

theorem parseIdentifierExprLt (fuel : Nat) (ps : PS) (r : Option ExprAST) (ps1 : PS)
    (hne : ps.curTok ≠ tok_eof) (h : ParseIdentifierExpr fuel ps = some (r, ps1)) :
    psMeasure ps1 < psMeasure ps := by
  cases fuel with
  | zero => simp [ParseIdentifierExpr] at h
  | succ n =>
    have hlt := psMeasure_getNextToken_lt ps hne
    simp only [ParseIdentifierExpr] at h
    split_ifs at h with h40 h41
    · simp only [Option.some.injEq, Prod.mk.injEq] at h
      obtain ⟨-, h2⟩ := h
      subst h2
      exact hlt
    · simp only [Option.some.injEq, Prod.mk.injEq] at h
      obtain ⟨-, h2⟩ := h
      subst h2
      exact lt_of_le_of_lt
        (le_trans (psMeasure_getNextToken_le _) (psMeasure_getNextToken_le _)) hlt
    · rcases hAr : ParseArgsLoop n (getNextToken (getNextToken ps).2).2 [] with _ | ⟨r0, psC⟩
      · rw [hAr] at h
        simp at h
      · rw [hAr] at h
        have hC : psMeasure psC ≤ psMeasure (getNextToken ps).2 :=
          le_trans ((parserMono n).2.2.2.2.1 _ [] r0 psC hAr) (psMeasure_getNextToken_le _)
        rcases r0 with _ | args
        · simp only [Option.some.injEq, Prod.mk.injEq] at h
          obtain ⟨-, h2⟩ := h
          subst h2
          exact lt_of_le_of_lt hC hlt
        · simp only [Option.some.injEq, Prod.mk.injEq] at h
          obtain ⟨-, h2⟩ := h
          subst h2
          exact lt_of_le_of_lt (le_trans (psMeasure_getNextToken_le psC) hC) hlt

theorem parseParenExprLt (fuel : Nat) (ps : PS) (r : Option ExprAST) (ps1 : PS)
    (hne : ps.curTok ≠ tok_eof) (h : ParseParenExpr fuel ps = some (r, ps1)) :
    psMeasure ps1 < psMeasure ps := by
  cases fuel with
  | zero => simp [ParseParenExpr] at h
  | succ n =>
    have hlt := psMeasure_getNextToken_lt ps hne
    simp only [ParseParenExpr] at h
    rcases hE : ParseExpression n (getNextToken ps).2 with _ | ⟨r0, psB⟩
    · rw [hE] at h
      simp at h
    · rw [hE] at h
      have hB : psMeasure psB ≤ psMeasure (getNextToken ps).2 :=
        (parserMono n).1 _ r0 psB hE
      rcases r0 with _ | v
      · simp only [Option.some.injEq, Prod.mk.injEq] at h
        obtain ⟨-, h2⟩ := h
        subst h2
        exact lt_of_le_of_lt hB hlt
      · simp only [] at h
        split_ifs at h with h41
        · simp only [Option.some.injEq, Prod.mk.injEq] at h
          obtain ⟨-, h2⟩ := h
          subst h2
          exact lt_of_le_of_lt (le_trans (psMeasure_getNextToken_le psB) hB) hlt
        · simp only [Option.some.injEq, LogError, Prod.mk.injEq] at h
          obtain ⟨-, h2⟩ := h
          subst h2
          exact lt_of_le_of_lt hB hlt

theorem parsePrimaryProgress (fuel : Nat) (ps : PS) (r : Option ExprAST) (ps1 : PS)
    (h : ParsePrimary fuel ps = some (r, ps1)) :
    psMeasure ps1 < psMeasure ps ∨ (r = none ∧ ps1.curTok = ps.curTok ∧ ps1.st = ps.st) := by
  cases fuel with
  | zero => simp [ParsePrimary] at h
  | succ n =>
    simp only [ParsePrimary] at h
    split_ifs at h with h1 h2 h3
    · left
      refine parseIdentifierExprLt n ps r ps1 ?_ h
      have h1' : ps.curTok = tok_identifier := by simpa using h1
      rw [h1']
      decide
    · left
      simp only [Option.some.injEq, Prod.mk.injEq] at h
      obtain ⟨-, h2'⟩ := h
      subst h2'
      refine psMeasure_getNextToken_lt ps ?_
      have h2'' : ps.curTok = tok_number := by simpa using h2
      rw [h2'']
      decide
    · left
      refine parseParenExprLt n ps r ps1 ?_ h
      have h3' : ps.curTok = 40 := by simpa using h3
      rw [h3']
      decide
    · right
      simp only [Option.some.injEq, LogError, Prod.mk.injEq] at h
      obtain ⟨h1', h2'⟩ := h
      subst h2'
      exact ⟨h1'.symm, rfl, rfl⟩

theorem parseExpressionProgress (fuel : Nat) (ps : PS) (r : Option ExprAST) (ps1 : PS)
    (h : ParseExpression fuel ps = some (r, ps1)) :
    psMeasure ps1 < psMeasure ps ∨ (r = none ∧ ps1.curTok = ps.curTok ∧ ps1.st = ps.st) := by
  cases fuel with
  | zero => simp [ParseExpression] at h
  | succ n =>
    simp only [ParseExpression] at h
    rcases hP : ParsePrimary n ps with _ | ⟨r0, psA⟩
    · rw [hP] at h
      simp at h
    · rw [hP] at h
      rcases r0 with _ | lhs
      · simp only [Option.some.injEq, Prod.mk.injEq] at h
        obtain ⟨h1, h2⟩ := h
        subst h2
        rcases parsePrimaryProgress n ps none psA hP with hl | hr
        · exact Or.inl hl
        · exact Or.inr ⟨h1.symm, hr.2⟩
      · left
        rcases parsePrimaryProgress n ps (some lhs) psA hP with hl | hr
        · exact lt_of_le_of_lt ((parserMono n).2.2.2.2.2 0 lhs psA r ps1 h) hl
        · exact absurd hr.1 (by simp)

theorem parseDefinitionLt (fuel : Nat) (ps : PS) (r : Option FunctionAST) (ps1 : PS)
    (hne : ps.curTok ≠ tok_eof) (h : ParseDefinition fuel ps = some (r, ps1)) :
    psMeasure ps1 < psMeasure ps := by
  cases fuel with
  | zero => simp [ParseDefinition] at h
  | succ n =>
    have hlt := psMeasure_getNextToken_lt ps hne
    simp only [ParseDefinition] at h
    rcases hP : ParsePrototype n (getNextToken ps).2 with _ | ⟨r0, psB⟩
    · rw [hP] at h
      simp at h
    · rw [hP] at h
      have hB : psMeasure psB ≤ psMeasure (getNextToken ps).2 :=
        parsePrototypeMono n _ r0 psB hP
      rcases r0 with _ | proto
      · simp only [Option.some.injEq, Prod.mk.injEq] at h
        obtain ⟨-, h2⟩ := h
        subst h2
        exact lt_of_le_of_lt hB hlt
      · simp only [] at h
        rcases hE : ParseExpression n psB with _ | ⟨r1, psC⟩
        · rw [hE] at h
          simp at h
        · rw [hE] at h
          have hC := le_trans ((parserMono n).1 psB r1 psC hE) hB
          rcases r1 with _ | e <;>
            simp only [Option.some.injEq, Prod.mk.injEq] at h <;>
            obtain ⟨-, h2⟩ := h <;> subst h2 <;> exact lt_of_le_of_lt hC hlt

theorem parseExternLt (fuel : Nat) (ps : PS) (r : Option PrototypeAST) (ps1 : PS)
    (hne : ps.curTok ≠ tok_eof) (h : ParseExtern fuel ps = some (r, ps1)) :
    psMeasure ps1 < psMeasure ps := by
  cases fuel with
  | zero => simp [ParseExtern] at h
  | succ n =>
    simp only [ParseExtern] at h
    exact lt_of_le_of_lt (parsePrototypeMono n _ r ps1 h) (psMeasure_getNextToken_lt ps hne)

/-! ## Driver recovery: each handled construct strictly shrinks the measure -/

theorem handleDefinitionLt (fuel : Nat) (ps ps1 : PS) (hne : ps.curTok ≠ tok_eof)
    (h : HandleDefinition fuel ps = some ps1) : psMeasure ps1 < psMeasure ps := by
  simp only [HandleDefinition] at h
  rcases hD : ParseDefinition fuel ps with _ | ⟨r0, psA⟩
  · rw [hD] at h
    simp at h
  · rw [hD] at h
    have hA := parseDefinitionLt fuel ps r0 psA hne hD
    rcases r0 with _ | f
    · simp only [Option.some.injEq] at h
      subst h
      exact lt_of_le_of_lt (psMeasure_getNextToken_le psA) hA
    · simp only [Option.some.injEq] at h
      subst h
      exact hA

theorem handleExternLt (fuel : Nat) (ps ps1 : PS) (hne : ps.curTok ≠ tok_eof)
    (h : HandleExtern fuel ps = some ps1) : psMeasure ps1 < psMeasure ps := by
  simp only [HandleExtern] at h
  rcases hD : ParseExtern fuel ps with _ | ⟨r0, psA⟩
  · rw [hD] at h
    simp at h
  · rw [hD] at h
    have hA := parseExternLt fuel ps r0 psA hne hD
    rcases r0 with _ | p
    · simp only [Option.some.injEq] at h
      subst h
      exact lt_of_le_of_lt (psMeasure_getNextToken_le psA) hA
    · simp only [Option.some.injEq] at h
      subst h
      exact hA

theorem psMeasure_congr {psA psB : PS} (ht : psA.curTok = psB.curTok)
    (hs : psA.st = psB.st) : psMeasure psA = psMeasure psB := by
  unfold psMeasure
  rw [ht, hs]

theorem handleTopLevelExpressionLt (fuel : Nat) (ps ps1 : PS) (hne : ps.curTok ≠ tok_eof)
    (h : HandleTopLevelExpression fuel ps = some ps1) : psMeasure ps1 < psMeasure ps := by
  simp only [HandleTopLevelExpression, ParseTopLevelExpr] at h
  rcases hE : ParseExpression fuel ps with _ | ⟨r0, psA⟩
  · rw [hE] at h
    simp at h
  · rw [hE] at h
    rcases r0 with _ | e
    · -- expression failed: the driver consumes one recovery token
      simp only [Option.some.injEq] at h
      subst h
      rcases parseExpressionProgress fuel ps none psA hE with hl | ⟨-, htok, hst⟩
      · exact lt_of_le_of_lt (psMeasure_getNextToken_le psA) hl
      · have heq : psMeasure psA = psMeasure ps := psMeasure_congr htok hst
        have : psMeasure (getNextToken psA).2 < psMeasure psA := by
          refine psMeasure_getNextToken_lt psA ?_
          rw [htok]
          exact hne
        omega
    · -- success: only the report line is appended
      simp only [Option.some.injEq] at h
      subst h
      rcases parseExpressionProgress fuel ps (some e) psA hE with hl | hr
      · exact lt_of_lt_of_le hl (le_of_eq rfl)
      · exact absurd hr.1 (by simp)

/-! ## Fuel sufficiency: with fuel linear in the measure, no parse function
runs out of fuel, so the fueled embedding computes exactly what the
(generally recursive) TypeScript functions compute. -/

theorem getTokPrecedence_nonneg_ne_eof {t : Int} (h : 0 ≤ GetTokPrecedence t) :
    t ≠ tok_eof := by
  intro heq
  subst heq
  revert h
  decide

theorem parserSuff (fuel : Nat) :
    (∀ ps, 4 * psMeasure ps + 6 ≤ fuel → ParseExpression fuel ps ≠ none) ∧
    (∀ ps, 4 * psMeasure ps + 5 ≤ fuel → ParsePrimary fuel ps ≠ none) ∧
    (∀ ps, ps.curTok ≠ tok_eof → 4 * psMeasure ps + 4 ≤ fuel →
      ParseParenExpr fuel ps ≠ none) ∧
    (∀ ps, ps.curTok ≠ tok_eof → 4 * psMeasure ps + 4 ≤ fuel →
      ParseIdentifierExpr fuel ps ≠ none) ∧
    (∀ ps acc, 4 * psMeasure ps + 8 ≤ fuel → ParseArgsLoop fuel ps acc ≠ none) ∧
    (∀ prec lhs ps, 0 ≤ prec → 4 * psMeasure ps + 4 ≤ fuel →
      ParseBinOpRHS fuel prec lhs ps ≠ none) := by
  induction fuel with
  | zero =>
    refine ⟨?_, ?_, ?_, ?_, ?_, ?_⟩ <;> intro ps <;> intros <;> omega
  | succ n ih =>
    obtain ⟨ihE, ihP, ihPar, ihI, ihA, ihB⟩ := ih
    refine ⟨?_, ?_, ?_, ?_, ?_, ?_⟩
    · -- ParseExpression
      intro ps hf
      simp only [ParseExpression]
      rcases hP : ParsePrimary n ps with _ | ⟨r0, psA⟩
      · exact absurd hP (ihP ps (by omega))
      · rcases r0 with _ | lhs
        · simp
        · have hA := (parserMono n).2.1 ps (some lhs) psA hP
          exact ihB 0 lhs psA (le_refl 0) (by omega)
    · -- ParsePrimary
      intro ps hf
      simp only [ParsePrimary]
      split_ifs with h1 h2 h3
      · refine ihI ps ?_ (by omega)
        have h1' : ps.curTok = tok_identifier := by simpa using h1
        rw [h1']
        decide
      · simp
      · refine ihPar ps ?_ (by omega)
        have h3' : ps.curTok = 40 := by simpa using h3
        rw [h3']
        decide
      · simp
    · -- ParseParenExpr
      intro ps hne hf
      simp only [ParseParenExpr]
      have hlt := psMeasure_getNextToken_lt ps hne
      rcases hE : ParseExpression n (getNextToken ps).2 with _ | ⟨r0, psB⟩
      · exact absurd hE (ihE _ (by omega))
      · rcases r0 with _ | v
        · simp
        · simp only []
          split_ifs <;> simp
    · -- ParseIdentifierExpr
      intro ps hne hf
      simp only [ParseIdentifierExpr]
      have hlt := psMeasure_getNextToken_lt ps hne
      split_ifs with h40 h41
      · simp
      · simp
      · have h40' : (getNextToken ps).2.curTok = 40 := by
          by_contra hcon
          exact h40 hcon
        have hlt2 : psMeasure (getNextToken (getNextToken ps).2).2 <
            psMeasure (getNextToken ps).2 := by
          refine psMeasure_getNextToken_lt _ ?_
          rw [h40']
          decide
        rcases hAr : ParseArgsLoop n (getNextToken (getNextToken ps).2).2 [] with _ | ⟨r0, psC⟩
        · exact absurd hAr (ihA _ [] (by omega))
        · rcases r0 with _ | args <;> simp
    · -- ParseArgsLoop
      intro ps acc hf
      simp only [ParseArgsLoop]
      rcases hE : ParseExpression n ps with _ | ⟨r0, psA⟩
      · exact absurd hE (ihE ps (by omega))
      · rcases r0 with _ | arg
        · simp
        · have hA := (parserMono n).1 ps (some arg) psA hE
          simp only []
          split_ifs with h41 h44
          · simp
          · simp
          · have h44' : psA.curTok = 44 := by
              by_contra hcon
              exact h44 hcon
            have hlt : psMeasure (getNextToken psA).2 < psMeasure psA := by
              refine psMeasure_getNextToken_lt _ ?_
              rw [h44']
              decide
            exact ihA _ (acc ++ [arg]) (by omega)
    · -- ParseBinOpRHS
      intro prec lhs ps hprec hf
      simp only [ParseBinOpRHS]
      split_ifs with hstop
      · simp
      · have hpre : 0 ≤ GetTokPrecedence ps.curTok := by omega
        have hne : ps.curTok ≠ tok_eof := getTokPrecedence_nonneg_ne_eof hpre
        have hlt := psMeasure_getNextToken_lt ps hne
        rcases hP : ParsePrimary n (getNextToken ps).2 with _ | ⟨r0, psB⟩
        · exact absurd hP (ihP _ (by omega))
        · rcases r0 with _ | rhs
          · simp
          · have hB := lt_of_le_of_lt ((parserMono n).2.1 _ (some rhs) psB hP) hlt
            simp only []
            split_ifs with hclimb
            · rcases hR : ParseBinOpRHS n (GetTokPrecedence ps.curTok + 1) rhs psB
                  with _ | ⟨r1, psC⟩
              · exact absurd hR (ihB _ rhs psB (by omega) (by omega))
              · rcases r1 with _ | rhs1
                · simp
                · have hC := lt_of_le_of_lt
                    ((parserMono n).2.2.2.2.2 _ rhs psB (some rhs1) psC hR) hB
                  exact ihB _ _ psC hprec (by omega)
            · exact ihB _ _ psB hprec (by omega)

theorem getNextToken_snd_curTok (ps : PS) :
    (getNextToken ps).2.curTok = (getNextToken ps).1 := rfl

theorem protoArgsLoopSuff (fuel : Nat) :
    ∀ (ps : PS) (acc : List String), ps.curTok ≠ tok_eof → psMeasure ps + 1 ≤ fuel →
      ProtoArgsLoop fuel ps acc ≠ none := by
  induction fuel with
  | zero =>
    intro ps acc hne hf
    omega
  | succ n ih =>
    intro ps acc hne hf
    simp only [ProtoArgsLoop]
    split_ifs with hid
    · have hid' : (getNextToken ps).1 = tok_identifier := by simpa using hid
      have hlt := psMeasure_getNextToken_lt ps hne
      refine ih _ _ ?_ (by omega)
      rw [getNextToken_snd_curTok, hid']
      decide
    · simp

theorem parsePrototypeSuff (fuel : Nat) (ps : PS) (hf : psMeasure ps + 2 ≤ fuel) :
    ParsePrototype fuel ps ≠ none := by
  cases fuel with
  | zero => omega
  | succ n =>
    simp only [ParsePrototype]
    split_ifs with h1 h2
    · simp
    · simp
    · have hne : ps.curTok ≠ tok_eof := by
        intro hc
        rw [hc] at h1
        revert h1
        decide
      have hlt := psMeasure_getNextToken_lt ps hne
      have h2' : (getNextToken ps).2.curTok = 40 := by
        by_contra hcon
        exact h2 hcon
      rcases hA : ProtoArgsLoop n (getNextToken ps).2 [] with _ | ⟨args, psB⟩
      · refine absurd hA (protoArgsLoopSuff n _ [] ?_ (by omega))
        rw [h2']
        decide
      · simp only []
        split_ifs <;> simp

theorem parseDefinitionSuff (fuel : Nat) (ps : PS) (hne : ps.curTok ≠ tok_eof)
    (hf : 4 * psMeasure ps + 8 ≤ fuel) : ParseDefinition fuel ps ≠ none := by
  cases fuel with
  | zero => omega
  | succ n =>
    simp only [ParseDefinition]
    have hlt := psMeasure_getNextToken_lt ps hne
    rcases hP : ParsePrototype n (getNextToken ps).2 with _ | ⟨r0, psB⟩
    · exact absurd hP (parsePrototypeSuff n _ (by omega))
    · rcases r0 with _ | proto
      · simp
      · have hB := lt_of_le_of_lt (parsePrototypeMono n _ (some proto) psB hP) hlt
        simp only []
        rcases hE : ParseExpression n psB with _ | ⟨r1, psC⟩
        · exact absurd hE ((parserSuff n).1 psB (by omega))
        · rcases r1 with _ | e <;> simp

theorem parseExternSuff (fuel : Nat) (ps : PS) (hne : ps.curTok ≠ tok_eof)
    (hf : psMeasure ps + 3 ≤ fuel) : ParseExtern fuel ps ≠ none := by
  cases fuel with
  | zero => omega
  | succ n =>
    simp only [ParseExtern]
    have hlt := psMeasure_getNextToken_lt ps hne
    exact parsePrototypeSuff n _ (by omega)

theorem parseTopLevelExprSuff (fuel : Nat) (ps : PS) (hf : 4 * psMeasure ps + 6 ≤ fuel) :
    ParseTopLevelExpr fuel ps ≠ none := by
  simp only [ParseTopLevelExpr]
  rcases hE : ParseExpression fuel ps with _ | ⟨r0, psA⟩
  · exact absurd hE ((parserSuff fuel).1 ps hf)
  · rcases r0 with _ | e <;> simp

theorem handleDefinitionSuff (fuel : Nat) (ps : PS) (hne : ps.curTok ≠ tok_eof)
    (hf : 4 * psMeasure ps + 8 ≤ fuel) : HandleDefinition fuel ps ≠ none := by
  simp only [HandleDefinition]
  rcases hD : ParseDefinition fuel ps with _ | ⟨r0, psA⟩
  · exact absurd hD (parseDefinitionSuff fuel ps hne hf)
  · rcases r0 with _ | f <;> simp

theorem handleExternSuff (fuel : Nat) (ps : PS) (hne : ps.curTok ≠ tok_eof)
    (hf : psMeasure ps + 3 ≤ fuel) : HandleExtern fuel ps ≠ none := by
  simp only [HandleExtern]
  rcases hD : ParseExtern fuel ps with _ | ⟨r0, psA⟩
  · exact absurd hD (parseExternSuff fuel ps hne hf)
  · rcases r0 with _ | p <;> simp

theorem handleTopLevelExpressionSuff (fuel : Nat) (ps : PS)
    (hf : 4 * psMeasure ps + 6 ≤ fuel) : HandleTopLevelExpression fuel ps ≠ none := by
  simp only [HandleTopLevelExpression]
  rcases hT : ParseTopLevelExpr fuel ps with _ | ⟨r0, psA⟩
  · exact absurd hT (parseTopLevelExprSuff fuel ps hf)
  · rcases r0 with _ | f <;> simp

theorem mainLoopSuff (fuel : Nat) :
    ∀ ps : PS, 5 * psMeasure ps + 9 ≤ fuel → MainLoop fuel ps ≠ none := by
  induction fuel with
  | zero =>
    intro ps hf
    omega
  | succ n ih =>
    intro ps hf
    simp only [MainLoop]
    split_ifs with he hsemi hdef hext
    · simp
    · have hne : ps.curTok ≠ tok_eof := by simpa using he
      have hlt := psMeasure_getNextToken_lt ps hne
      exact ih _ (by omega)
    · have hne : ps.curTok ≠ tok_eof := by simpa using he
      rcases hH : HandleDefinition n ps with _ | psA
      · exact absurd hH (handleDefinitionSuff n ps hne (by omega))
      · have hlt := handleDefinitionLt n ps psA hne hH
        exact ih psA (by omega)
    · have hne : ps.curTok ≠ tok_eof := by simpa using he
      rcases hH : HandleExtern n ps with _ | psA
      · exact absurd hH (handleExternSuff n ps hne (by omega))
      · have hlt := handleExternLt n ps psA hne hH
        exact ih psA (by omega)
    · have hne : ps.curTok ≠ tok_eof := by simpa using he
      rcases hH : HandleTopLevelExpression n ps with _ | psA
      · exact absurd hH (handleTopLevelExpressionSuff n ps (by omega))
      · have hlt := handleTopLevelExpressionLt n ps psA hne hH
        exact ih psA (by omega)

/-- C8: for every finite input character stream the driver's dispatch loop
terminates by reaching the end-of-stream token and the program exits with
status 0, no matter how many top-level constructs failed to parse along the
way (first conjunct, with an explicit sufficient fuel bound witnessing
termination of the embedded general recursion); after a failed top-level
construct the driver consumes exactly one token before resuming (second
conjunct, shown for the bare-expression handler); and the extra consume at
end-of-stream still yields the end-of-stream token, leaving the lexer state
unchanged (third conjunct), so the loop still terminates. -/
theorem claim_C8 :
    (∀ input : List Char, ∃ fuel : Nat, mainF fuel input = some 0) ∧
    (∀ (fuel : Nat) (ps ps1 : PS), ParseTopLevelExpr fuel ps = some (none, ps1) →
      HandleTopLevelExpression fuel ps = some (getNextToken ps1).2) ∧
    (∀ s : LexSt, s.lastChar = EOF → gettok s = (tok_eof, s)) := by
  refine ⟨?_, ?_, ?_⟩
  · intro input
    refine ⟨5 * psMeasure (initPS input) + 9, ?_⟩
    unfold mainF
    rcases hM : MainLoop (5 * psMeasure (initPS input) + 9) (initPS input) with _ | psF
    · exact absurd hM (mainLoopSuff _ _ (le_refl _))
    · rfl
  · intro fuel ps ps1 h
    simp only [HandleTopLevelExpression]
    rw [h]
  · exact fun s hs => gettok_eof_fixed hs

/-- Witness for C8's hypothesis-bearing conjuncts: the one-token recovery
consume after the failed bare expression `")"`, and the idempotent
end-of-stream consume. -/
theorem claim_C8_witness :
    HandleTopLevelExpression 10 (initPS (")".data)) =
      some (getNextToken ⟨41, ⟨EOF, [], "", none⟩,
        ["LogError: unknown token when expecting an expression"]⟩).2 ∧
    gettok ⟨EOF, [], "", none⟩ = (tok_eof, ⟨EOF, [], "", none⟩) :=
  ⟨claim_C8.2.1 10 (initPS (")".data))
      ⟨41, ⟨EOF, [], "", none⟩, ["LogError: unknown token when expecting an expression"]⟩
      (by with_unfolding_all rfl),
   claim_C8.2.2 ⟨EOF, [], "", none⟩ rfl⟩

/-- C1: parsing `"1+2*3"` yields
`BinaryOp('+', NumberLiteral(1), BinaryOp('*', NumberLiteral(2), NumberLiteral(3)))`:
the `'*'` after the right-hand side `2` has strictly higher table precedence
than the consumed `'+'`, so the precedence-climbing loop attaches `2` to
`'*'` first. -/
theorem claim_C1 :
    (ParseExpression 1000 (initPS ("1+2*3".data))).map (fun r => r.1) =
      some (some (ExprAST.BinaryExprAST (ord '+') (ExprAST.NumberExprAST (some 1))
        (ExprAST.BinaryExprAST (ord '*') (ExprAST.NumberExprAST (some 2))
          (ExprAST.NumberExprAST (some 3))))) := by
  with_unfolding_all rfl

/-- C2: parsing `"1-2-3"` yields
`BinaryOp('-', BinaryOp('-', NumberLiteral(1), NumberLiteral(2)), NumberLiteral(3))`:
equal-precedence operators group left-associatively because the climb is
taken only on a strictly greater following precedence. -/
theorem claim_C2 :
    (ParseExpression 1000 (initPS ("1-2-3".data))).map (fun r => r.1) =
      some (some (ExprAST.BinaryExprAST (ord '-')
        (ExprAST.BinaryExprAST (ord '-') (ExprAST.NumberExprAST (some 1))
          (ExprAST.NumberExprAST (some 2)))
        (ExprAST.NumberExprAST (some 3)))) := by
  with_unfolding_all rfl

/-- C6: parsing `"foo(1,2)"` yields `Call("foo", [NumberLiteral(1),
NumberLiteral(2)])` with the arguments in input order, while parsing
`"foo(1,2"` (missing close parenthesis) yields the absent marker, logs
exactly one diagnostic — `"Expected ')' or ',' in argument list"` — and
returns no partial `Call` node. -/
theorem claim_C6 :
    (ParseExpression 1000 (initPS ("foo(1,2)".data))).map (fun r => r.1) =
      some (some (ExprAST.CallExprAST "foo"
        [ExprAST.NumberExprAST (some 1), ExprAST.NumberExprAST (some 2)])) ∧
    (ParseExpression 1000 (initPS ("foo(1,2".data))).map (fun r => (r.1, r.2.log)) =
      some (none, ["LogError: Expected ')' or ',' in argument list"]) := by
  constructor <;> with_unfolding_all rfl

/-- C7: a bare top-level expression is wrapped in a `Function` whose
`Prototype` has the empty string as name and an empty parameter list, and
nothing else is added — stated both as the general relation between
`ParseTopLevelExpr` and `ParseExpression` (for every fuel and state, the
result is exactly the expression result with the successful payload wrapped)
and concretely for `"42"`. -/
theorem claim_C7 :
    (∀ (fuel : Nat) (ps : PS), ParseTopLevelExpr fuel ps =
      (ParseExpression fuel ps).map (fun r =>
        (r.1.map (fun e => FunctionAST.mk (PrototypeAST.mk "" []) e), r.2))) ∧
    (ParseTopLevelExpr 1000 (initPS ("42".data))).map (fun r => r.1) =
      some (some (FunctionAST.mk (PrototypeAST.mk "" [])
        (ExprAST.NumberExprAST (some 42)))) := by
  constructor
  · intro fuel ps
    simp only [ParseTopLevelExpr]
    rcases h : ParseExpression fuel ps with _ | ⟨r0, ps1⟩
    · rfl
    · rcases r0 with _ | e <;> rfl
  · with_unfolding_all rfl

/-- C9: the precedence table is seeded with `'<' ↦ 10`, `'+' ↦ 20`,
`'-' ↦ 30`, `'*' ↦ 40`, so `'-'` binds strictly tighter than `'+'`: parsing
`"1+2-3"` yields `BinaryOp('+', NumberLiteral(1), BinaryOp('-',
NumberLiteral(2), NumberLiteral(3)))` and not the left-associated
`BinaryOp('-', BinaryOp('+', 1, 2), 3)` that equal precedences would give. -/
theorem claim_C9 :
    BinopPrecedence (ord '<') = some 10 ∧
    BinopPrecedence (ord '+') = some 20 ∧
    BinopPrecedence (ord '-') = some 30 ∧
    BinopPrecedence (ord '*') = some 40 ∧
    (ParseExpression 1000 (initPS ("1+2-3".data))).map (fun r => r.1) =
      some (some (ExprAST.BinaryExprAST (ord '+') (ExprAST.NumberExprAST (some 1))
        (ExprAST.BinaryExprAST (ord '-') (ExprAST.NumberExprAST (some 2))
          (ExprAST.NumberExprAST (some 3))))) ∧
    (ParseExpression 1000 (initPS ("1+2-3".data))).map (fun r => r.1) ≠
      some (some (ExprAST.BinaryExprAST (ord '-')
        (ExprAST.BinaryExprAST (ord '+') (ExprAST.NumberExprAST (some 1))
          (ExprAST.NumberExprAST (some 2)))
        (ExprAST.NumberExprAST (some 3)))) := by
  have hres : (ParseExpression 1000 (initPS ("1+2-3".data))).map (fun r => r.1) =
      some (some (ExprAST.BinaryExprAST (ord '+') (ExprAST.NumberExprAST (some 1))
        (ExprAST.BinaryExprAST (ord '-') (ExprAST.NumberExprAST (some 2))
          (ExprAST.NumberExprAST (some 3))))) := by
    with_unfolding_all rfl
  refine ⟨by decide, by decide, by decide, by decide, hres, ?_⟩
  rw [hres]
  intro hcon
  simp only [Option.some.injEq] at hcon
  injection hcon with h1 h2 h3
  exact absurd h1 (by decide)
